import Mathlib

/-!
Verification development for the GovNavigator retrieval/ranking engine.

The definitions below are a shallow embedding of `src/search/index.py`
(TF-IDF lexical index) and `src/search/embeddings.py` (vector index).
Python floats are idealized as real numbers, Python lists as Lean lists,
and Python dicts (which preserve insertion order) as association lists.
Character-level operations model the ASCII behaviour of Python's
`str.lower`, `re` word characters (`\w` = alphanumeric or underscore)
and whitespace.
-/

/-! ## String utilities (models of Python string primitives) -/

/-- Model of Python `str.split()` on a character list: split on runs of
whitespace, discarding empty pieces.  `acc` holds the current token in
reverse. -/
def splitWsAux : List Char → List Char → List (List Char)
  | [], acc => if acc.isEmpty then [] else [acc.reverse]
  | c :: rest, acc =>
    if c.isWhitespace then
      if acc.isEmpty then splitWsAux rest [] else acc.reverse :: splitWsAux rest []
    else splitWsAux rest (c :: acc)

/-- Python `text.split()`. -/
def splitWs (cs : List Char) : List (List Char) := splitWsAux cs []

/-- Model of Python `str.find`: the least index at which `needle` occurs in
`hay`, or `none` (Python returns `-1`). -/
def findSub (hay needle : List Char) : Option Nat :=
  (List.range (hay.length + 1)).find? (fun i => needle.isPrefixOf (hay.drop i))

/-- Model of Python `str.strip()`: remove leading and trailing whitespace. -/
def stripChars (cs : List Char) : List Char :=
  ((cs.dropWhile Char.isWhitespace).reverse.dropWhile Char.isWhitespace).reverse

/-! ## Tokenizer (`index.py`, `STOP_WORDS` and `tokenize`) -/

/-- The stop-word set of `index.py`, transcribed verbatim. -/
def STOP_WORDS : List String := [
  "the", "a", "an", "and", "or", "but", "in", "on", "at", "to", "for",
  "of", "with", "by", "from", "as", "is", "was", "are", "were", "been",
  "be", "have", "has", "had", "do", "does", "did", "will", "would",
  "could", "should", "may", "might", "must", "shall", "can", "need",
  "this", "that", "these", "those", "it", "its", "they", "them", "their",
  "he", "she", "him", "her", "his", "we", "us", "our", "you", "your",
  "who", "which", "what", "where", "when", "why", "how", "all", "each",
  "any", "both", "more", "most", "other", "some", "such", "no", "nor",
  "not", "only", "own", "same", "so", "than", "too", "very", "just",
  "also", "now", "here", "there", "then", "if", "else", "because",
  "about", "into", "through", "during", "before", "after", "above",
  "below", "between", "under", "again", "further", "once", "upon"]

/-- A regex word character `\w` in the ASCII range: alphanumeric or
underscore.  Note that Python's `\w` includes the underscore. -/
def isWordChar (c : Char) : Bool := c.isAlphanum || c = '_'

/-- `tokenize` from `index.py`: lowercase, replace every character that is
neither a word character (`\w`) nor whitespace by a space, split on
whitespace, and drop stop words and tokens of length at most 1. -/
def tokenize (text : String) : List String :=
  let lowered := text.data.map Char.toLower
  let replaced := lowered.map (fun c => if isWordChar c || c.isWhitespace then c else ' ')
  let pieces := splitWs replaced
  (pieces.map String.mk).filter (fun t => !(STOP_WORDS.contains t) && decide (1 < t.length))

/-! ## Stemmer (`index.py`, `simple_stem`) -/

/-- Character-level body of `simple_stem`, mirroring the Python control
flow: a first-match-wins suffix chain guarded by `len > 5`, falling
through to the trailing-`s` rule guarded by `len > 3`. -/
def stemChars (cs : List Char) : List Char :=
  if 5 < cs.length then
    if "ing".data.isSuffixOf cs then cs.take (cs.length - 3)
    else if "tion".data.isSuffixOf cs then cs.take (cs.length - 4)
    else if "ment".data.isSuffixOf cs then cs.take (cs.length - 4)
    else if "ness".data.isSuffixOf cs then cs.take (cs.length - 4)
    else if "able".data.isSuffixOf cs then cs.take (cs.length - 4)
    else if "ible".data.isSuffixOf cs then cs.take (cs.length - 4)
    else if "ous".data.isSuffixOf cs then cs.take (cs.length - 3)
    else if "ive".data.isSuffixOf cs then cs.take (cs.length - 3)
    else if "ly".data.isSuffixOf cs then cs.take (cs.length - 2)
    else if "ed".data.isSuffixOf cs then cs.take (cs.length - 2)
    else if "er".data.isSuffixOf cs then cs.take (cs.length - 2)
    else if "es".data.isSuffixOf cs then cs.take (cs.length - 2)
    else if 3 < cs.length ∧ "s".data.isSuffixOf cs then cs.take (cs.length - 1)
    else cs
  else if 3 < cs.length ∧ "s".data.isSuffixOf cs then cs.take (cs.length - 1)
  else cs

/-- `simple_stem` from `index.py`. -/
def simple_stem (word : String) : String := String.mk (stemChars word.data)

/-! ## Data model -/

/-- A document record.  The code only ever reads `doc.get("title", "")` and
`doc.get("content", "")` (plus `doc["content"]` for snippets), so the model
keeps exactly those two fields. -/
structure Doc where
  title : String
  content : String
deriving DecidableEq

/-! ## Ordered-dictionary helpers.

Python dicts preserve insertion order; they are modelled as association
lists where a fresh key is appended at the end. -/

/-- Dictionary lookup (`d[k]` / `k in d`). -/
def alookup {κ α : Type} [DecidableEq κ] : List (κ × α) → κ → Option α
  | [], _ => none
  | (k', v) :: rest, k => if k' = k then some v else alookup rest k

/-- Dictionary lookup with default (`d.get(k, dflt)`). -/
def alookupD {κ α : Type} [DecidableEq κ] (l : List (κ × α)) (k : κ) (dflt : α) : α :=
  (alookup l k).getD dflt

/-- `defaultdict(list)`: `d[k].append(p)`, inserting `k` with `[p]` at the
end if absent. -/
def alistAppend (l : List (String × List (Nat × Nat))) (k : String) (p : Nat × Nat) :
    List (String × List (Nat × Nat)) :=
  match l with
  | [] => [(k, [p])]
  | (k', ps) :: rest => if k' = k then (k', ps ++ [p]) :: rest else (k', ps) :: alistAppend rest k p

/-- `defaultdict(int)`: `d[k] += 1`, inserting `k` with `1` at the end if
absent. -/
def bumpCount (l : List (String × Nat)) (k : String) : List (String × Nat) :=
  match l with
  | [] => [(k, 1)]
  | (k', c) :: rest => if k' = k then (k', c + 1) :: rest else (k', c) :: bumpCount rest k

/-- The `term_counts` aggregation loop of `add_document`. -/
def countTokens (ts : List String) : List (String × Nat) := ts.foldl bumpCount []

/-- `doc_scores`: `defaultdict(float)` accumulation `d[k] += v`. -/
noncomputable def addScore (l : List (Nat × ℝ)) (k : Nat) (v : ℝ) : List (Nat × ℝ) :=
  match l with
  | [] => [(k, v)]
  | (k', v') :: rest => if k' = k then (k', v' + v) :: rest else (k', v') :: addScore rest k v

/-- `doc_matched_terms`: `defaultdict(set)` with `d[k].add(s)`.  A Python
set of strings is idealized as an insertion-ordered duplicate-free list. -/
def addMatch (l : List (Nat × List String)) (k : Nat) (s : String) : List (Nat × List String) :=
  match l with
  | [] => [(k, [s])]
  | (k', ss) :: rest =>
    if k' = k then (k', if ss.contains s then ss else ss ++ [s]) :: rest
    else (k', ss) :: addMatch rest k s

/-! ## The lexical index (`index.py`, class `SearchIndex`) -/

structure SearchIndex where
  documents : List Doc
  inverted_index : List (String × List (Nat × Nat))
  doc_lengths : List Nat
  idf_scores : List (String × ℝ)
  num_docs : Nat

/-- `SearchIndex.__init__`. -/
def SearchIndex.empty : SearchIndex := ⟨[], [], [], [], 0⟩

/-- `SearchIndex.add_document` (the state after the call; Python also
returns the fresh `doc_id`, which equals `idx.documents.length`). -/
def SearchIndex.add_document (idx : SearchIndex) (doc : Doc) : SearchIndex :=
  let doc_id := idx.documents.length
  let text := doc.title ++ " " ++ doc.title ++ " " ++ doc.content
  let stemmed_tokens := (tokenize text).map simple_stem
  let term_counts := countTokens stemmed_tokens
  { documents := idx.documents ++ [doc]
    inverted_index :=
      term_counts.foldl (fun ii tc => alistAppend ii tc.1 (doc_id, tc.2)) idx.inverted_index
    doc_lengths := idx.doc_lengths ++ [stemmed_tokens.length]
    idf_scores := idx.idf_scores
    num_docs := idx.num_docs + 1 }

/-- `SearchIndex.build_idf_scores`:
`idf(term) = log((num_docs + 1) / (df + 1))` with `df` the length of the
term's postings list. -/
noncomputable def SearchIndex.build_idf_scores (idx : SearchIndex) : SearchIndex :=
  { idx with
    idf_scores := idx.inverted_index.map
      (fun tp => (tp.1, Real.log (((idx.num_docs : ℝ) + 1) / ((tp.2.length : ℝ) + 1)))) }

/-- Building an index from a document collection
(`build_index_from_file` without persistence). -/
noncomputable def buildIndex (docs : List Doc) : SearchIndex :=
  (docs.foldl SearchIndex.add_document SearchIndex.empty).build_idf_scores

/-- The inner loop of `SearchIndex.search` for one query stem: skip stems
absent from the inverted index, otherwise add
`log(1 + tf) * idf / sqrt(doc_length + 1)` to each posting's document
score and record the matched term.  `doc_lengths[doc_id]` is modelled
with a `getD` default; the in-bounds invariant is proved separately. -/
noncomputable def scoreTerm (idx : SearchIndex)
    (st : List (Nat × ℝ) × List (Nat × List String)) (stem : String) :
    List (Nat × ℝ) × List (Nat × List String) :=
  match alookup idx.inverted_index stem with
  | none => st
  | some postings =>
    let idf := alookupD idx.idf_scores stem 0
    postings.foldl (fun st2 p =>
      let tf_score := Real.log (1 + (p.2 : ℝ))
      let doc_length := idx.doc_lengths.getD p.1 0
      let score := tf_score * idf / Real.sqrt ((doc_length : ℝ) + 1)
      (addScore st2.1 p.1 score, addMatch st2.2 p.1 stem)) st

/-- The score-accumulation phase of `SearchIndex.search`: fold `scoreTerm`
over the (not deduplicated) list of stemmed query tokens, starting from
empty `doc_scores` and `doc_matched_terms` dictionaries. -/
noncomputable def SearchIndex.scoreQuery (idx : SearchIndex) (query_stems : List String) :
    List (Nat × ℝ) × List (Nat × List String) :=
  query_stems.foldl (scoreTerm idx) ([], [])

/-- Insert into a descending-sorted list, placing `x` after all entries
with strictly larger score and before all others. -/
noncomputable def insertDesc (x : Nat × ℝ) : List (Nat × ℝ) → List (Nat × ℝ)
  | [] => [x]
  | y :: ys => if x.2 < y.2 then y :: insertDesc x ys else x :: y :: ys

/-- Model of Python's `sorted(items, key=score, reverse=True)`: a stable
descending insertion sort (Python's sort is stable; any two stable sorts
under the same total preorder agree). -/
noncomputable def sortScoresDesc : List (Nat × ℝ) → List (Nat × ℝ)
  | [] => []
  | x :: xs => insertDesc x (sortScoresDesc xs)

/-- Idealization of Python's `round(x, 4)` as exact decimal rounding. -/
noncomputable def roundTo4 (x : ℝ) : ℝ := ((round (x * 10000) : ℤ) : ℝ) / 10000

/-- `SearchIndex._create_snippet`: scan for the first query token that
occurs verbatim (case-insensitively) and cut a window of `context`
characters around it; otherwise fall back to the first 200 characters. -/
def create_snippet (content : String) (query_terms : List String) (context : Nat) : String :=
  let content_lower := content.data.map Char.toLower
  snippetLoop content content_lower context query_terms
where
  snippetLoop (content : String) (content_lower : List Char) (context : Nat) :
      List String → String
  | [] =>
    if 200 < content.length then String.mk (content.data.take 200) ++ "..." else content
  | term :: rest =>
    match findSub content_lower (term.data.map Char.toLower) with
    | none => snippetLoop content content_lower context rest
    | some pos =>
      let start := pos - context
      let stop := min content.length (pos + term.length + context)
      let snippet := (content.data.drop start).take (stop - start)
      let snippet := if 0 < start then "...".data ++ snippet else snippet
      let snippet := if stop < content.length then snippet ++ "...".data else snippet
      String.mk (stripChars snippet)

/-- A lexical search result (`document`, rounded `score`, `matched_terms`,
`snippet`). -/
structure SearchResult where
  document : Doc
  score : ℝ
  matched_terms : List String
  snippet : String

/-- `SearchIndex.search`: tokenize and stem the query, return `[]` for an
empty stemmed query, accumulate scores, sort descending (stable), truncate
to `max_results` and build the result records. -/
noncomputable def SearchIndex.search (idx : SearchIndex) (query : String)
    (max_results : Nat) : List SearchResult :=
  let query_tokens := tokenize query
  let query_stems := query_tokens.map simple_stem
  if query_stems = [] then []
  else
    let sm := idx.scoreQuery query_stems
    let ranked := (sortScoresDesc sm.1).take max_results
    ranked.map (fun p =>
      let doc := idx.documents.getD p.1 ⟨"", ""⟩
      { document := doc
        score := roundTo4 p.2
        matched_terms := alookupD sm.2 p.1 []
        snippet := create_snippet doc.content query_tokens 100 })

/-! ## Lexical persistence (`SearchIndex.save` / `SearchIndex.load`).

The JSON text layer is abstracted: a snapshot is the structured record
that `save` writes (`json.dump`) and `load` parses back, with the
list-to-tuple conversion of postings absorbed. -/

structure LexSnapshot where
  documents : List Doc
  inverted_index : List (String × List (Nat × Nat))
  idf_scores : List (String × ℝ)
  doc_lengths : List Nat
  num_docs : Nat

def SearchIndex.save (idx : SearchIndex) : LexSnapshot :=
  ⟨idx.documents, idx.inverted_index, idx.idf_scores, idx.doc_lengths, idx.num_docs⟩

def SearchIndex.load (s : LexSnapshot) : SearchIndex :=
  ⟨s.documents, s.inverted_index, s.doc_lengths, s.idf_scores, s.num_docs⟩

/-! ## Cosine similarity (`embeddings.py`, `cosine_similarity`) -/

/-- `dot_product = sum(a * b for a, b in zip(vec1, vec2))`.  Note that
Python's `zip` stops at the shorter vector. -/
def dot_product (vec1 vec2 : List ℝ) : ℝ :=
  ((vec1.zip vec2).map (fun p => p.1 * p.2)).sum

/-- `magnitude = sqrt(sum(a * a for a in vec))`. -/
noncomputable def magnitude (vec : List ℝ) : ℝ :=
  Real.sqrt ((vec.map (fun a => a * a)).sum)

/-- `cosine_similarity` from `embeddings.py`: `0.0` when either magnitude
is zero, otherwise `dot_product / (magnitude1 * magnitude2)`. -/
noncomputable def cosine_similarity (vec1 vec2 : List ℝ) : ℝ :=
  if magnitude vec1 = 0 ∨ magnitude vec2 = 0 then 0
  else dot_product vec1 vec2 / (magnitude vec1 * magnitude vec2)

/-! ## The embedding index (`embeddings.py`, class `EmbeddingSearchIndex`) -/

/-- An embedding search result (`document`, rounded `score`, `snippet`). -/
structure EmbSearchResult where
  document : Doc
  score : ℝ
  snippet : String

/-- The embedding index.  The external Embedder's query path
(`embed_query`) is idealized as a deterministic function; the document
path (`embed_texts`) is supplied separately to `add_documents` as a
per-call oracle, because its outcome may differ from call to call
(rate limits). -/
structure EmbeddingSearchIndex where
  embed_query : String → List ℝ
  documents : List Doc
  embeddings : List (List ℝ)

/-- `EmbeddingSearchIndex.search`: embed the query, score every stored
vector with cosine similarity, stable-sort descending, truncate, and
build results (`content[:300] + "..."`). -/
noncomputable def EmbeddingSearchIndex.search (idx : EmbeddingSearchIndex)
    (query : String) (max_results : Nat) : List EmbSearchResult :=
  let query_embedding := idx.embed_query query
  let similarities := idx.embeddings.enum.map
    (fun p => (p.1, cosine_similarity query_embedding p.2))
  ((sortScoresDesc similarities).take max_results).map (fun p =>
    let doc := idx.documents.getD p.1 ⟨"", ""⟩
    { document := doc
      score := roundTo4 p.2
      snippet := String.mk (doc.content.data.take 300) ++ "..." })

/-! ## Embedding persistence (`EmbeddingSearchIndex.save` / `.load`) -/

structure EmbSnapshot where
  documents : List Doc
  embeddings : List (List ℝ)

def EmbeddingSearchIndex.save (idx : EmbeddingSearchIndex) : EmbSnapshot :=
  ⟨idx.documents, idx.embeddings⟩

/-- `load(filepath, embedder)`: reconstruct the index from a snapshot
with the supplied embedder. -/
def EmbeddingSearchIndex.load (s : EmbSnapshot) (embedder : String → List ℝ) :
    EmbeddingSearchIndex :=
  ⟨embedder, s.documents, s.embeddings⟩

/-! ## Embedding ingestion (`EmbeddingSearchIndex.add_documents`) -/

/-- The batches cut by `for i in range(0, len(documents), batch_size)`
with `documents[i:i + batch_size]`.  A step of `0` raises in Python;
here it yields no batches, and all theorems assume `0 < b`. -/
def chunks {α : Type} : Nat → List α → List (List α)
  | 0, _ => []
  | _ + 1, [] => []
  | b + 1, x :: xs =>
    (x :: xs).take (b + 1) :: chunks (b + 1) ((x :: xs).drop (b + 1))
termination_by _ l => l.length
decreasing_by
  simp only [List.drop_succ_cons, List.length_cons, List.length_drop]
  omega

/-- The embedding-input texts of one batch:
`title + " " + content[:1000]`. -/
def batchTexts (batch : List Doc) : List String :=
  batch.map (fun d => d.title ++ " " ++ String.mk (d.content.data.take 1000))

/-- The code's rate-limit classification: `"rate" in str(e).lower()`. -/
def isRateError (msg : String) : Bool :=
  (findSub (msg.data.map Char.toLower) "rate".data).isSome

/-- Observable trace of one `add_documents` run: the index state
(`documents`, `embeddings`), the texts of every `embed_texts` call in
order, the number of 30-second rate-limit backoffs, the number of
25-second inter-batch delays, and the propagated error if ingestion
halted. -/
structure IngestTrace where
  documents : List Doc
  embeddings : List (List ℝ)
  calls : List (List String)
  backoffs : Nat
  delays : Nat
  error : Option String

/-- The batch loop of `add_documents`.  `embedder k texts` is the outcome
of the `k`-th `embed_texts` call of this run.  On failure the error is
retried once iff it is rate-limit-classified; a second failure (or a
non-rate failure) halts ingestion with the state appended so far. -/
def runBatches (embedder : Nat → List String → Except String (List (List ℝ))) :
    List (List Doc) → Nat → IngestTrace → IngestTrace
  | [], _, tr => tr
  | batch :: rest, k, tr =>
    let texts := batchTexts batch
    match embedder k texts with
    | Except.ok batch_embeddings =>
      runBatches embedder rest (k + 1)
        { tr with
          documents := tr.documents ++ batch
          embeddings := tr.embeddings ++ batch_embeddings
          calls := tr.calls ++ [texts]
          delays := tr.delays + (if rest = [] then 0 else 1) }
    | Except.error e =>
      if isRateError e then
        match embedder (k + 1) texts with
        | Except.ok batch_embeddings =>
          runBatches embedder rest (k + 2)
            { tr with
              documents := tr.documents ++ batch
              embeddings := tr.embeddings ++ batch_embeddings
              calls := tr.calls ++ [texts, texts]
              backoffs := tr.backoffs + 1
              delays := tr.delays + (if rest = [] then 0 else 1) }
        | Except.error e2 =>
          { tr with
            calls := tr.calls ++ [texts, texts]
            backoffs := tr.backoffs + 1
            error := some e2 }
      else
        { tr with calls := tr.calls ++ [texts], error := some e }

/-- `EmbeddingSearchIndex.add_documents documents batch_size`, run against
the per-call outcome oracle `embedder`.  Documents and vectors are
appended to the index's current contents. -/
def EmbeddingSearchIndex.add_documents (idx : EmbeddingSearchIndex)
    (embedder : Nat → List String → Except String (List (List ℝ)))
    (documents : List Doc) (batch_size : Nat) : IngestTrace :=
  runBatches embedder (chunks batch_size documents) 0
    ⟨idx.documents, idx.embeddings, [], 0, 0, none⟩

/-! ## Spec-side definitions.

These follow the wording of the specification / claims (not the source)
and are compared against the source-derived definitions above. -/

/-- Modelled from the claim wording of C4: "replaces every character that
is not alphanumeric or whitespace with a single space" — in particular the
underscore would act as a token separator. -/
def tokenize_claimC4 (text : String) : List String :=
  let step1 := text.data.map Char.toLower
  let step2 := step1.map (fun c => if !c.isAlphanum && !c.isWhitespace then ' ' else c)
  let step3 := splitWs step2
  (step3.map String.mk).filter (fun t => !(STOP_WORDS.contains t) && decide (1 < t.length))

/-- The amended wording of C4: every character that is neither
alphanumeric, nor an underscore, nor whitespace becomes a space; the
underscore is a word character (Python `\w`) and does not separate. -/
def tokenize_amendC4 (text : String) : List String :=
  let step1 := text.data.map Char.toLower
  let step2 := step1.map
    (fun c => if !c.isAlphanum && c ≠ '_' && !c.isWhitespace then ' ' else c)
  let step3 := splitWs step2
  (step3.map String.mk).filter (fun t => !(STOP_WORDS.contains t) && decide (1 < t.length))

/-- The stemming table exactly as the spec states it: suffix, minimum
pre-strip length, number of characters removed — strictly in priority
order, with the trailing-`s` rule last. -/
def stemRules : List (List Char × Nat × Nat) :=
  [("ing".data, 5, 3), ("tion".data, 5, 4), ("ment".data, 5, 4), ("ness".data, 5, 4),
   ("able".data, 5, 4), ("ible".data, 5, 4), ("ous".data, 5, 3), ("ive".data, 5, 3),
   ("ly".data, 5, 2), ("ed".data, 5, 2), ("er".data, 5, 2), ("es".data, 5, 2),
   ("s".data, 3, 1)]

/-- First-match-wins application of a rule table: at most one rule fires,
no recursion. -/
def applyFirstRule : List (List Char × Nat × Nat) → List Char → List Char
  | [], cs => cs
  | (sfx, minLen, k) :: rest, cs =>
    if minLen < cs.length ∧ sfx.isSuffixOf cs then cs.take (cs.length - k)
    else applyFirstRule rest cs

/-- The spec's description of the stemmer as a priority rule table. -/
def stem_byRules (word : String) : String := String.mk (applyFirstRule stemRules word.data)

/-- Accumulated-score lookup: the running total of a document in the
`doc_scores` dictionary (`0` when absent, as for `defaultdict(float)`). -/
noncomputable def lookup0 (l : List (Nat × ℝ)) (d : Nat) : ℝ := alookupD l d 0

/-- The contribution of one occurrence of a stemmed query term to one
document, as the spec's formula states it: the sum over the term's
postings for that document of `ln(1+tf) * idf(term) / sqrt(doc_length+1)`
(zero when the term is not in the inverted index). -/
noncomputable def perTermScore (idx : SearchIndex) (stem : String) (d : Nat) : ℝ :=
  match alookup idx.inverted_index stem with
  | none => 0
  | some postings =>
    ((postings.filter (fun p => p.1 = d)).map (fun p =>
      Real.log (1 + (p.2 : ℝ)) * alookupD idx.idf_scores stem 0 /
        Real.sqrt (((idx.doc_lengths.getD p.1 0 : ℕ) : ℝ) + 1))).sum

/-! ## Concrete fixtures used by witnesses and counterexamples -/

/-- A two-document corpus: `fences` stems to `fenc` and occurs only in the
first document. -/
def d0C2 : Doc := ⟨"", "fences wall"⟩

def d1C2 : Doc := ⟨"", "wall zone"⟩

noncomputable def idxC2 : SearchIndex := buildIndex [d0C2, d1C2]

/-- A two-document corpus where each document matches exactly one query
term with identical statistics, so accumulated scores tie exactly. -/
def dA : Doc := ⟨"", "quartz"⟩

def dB : Doc := ⟨"", "zebra"⟩

noncomputable def idxC3 : SearchIndex := buildIndex [dA, dB]

/-- A small index state for the IDF witness: term `aa` in one document,
term `bb` in two, out of two documents. -/
def idxW8 : SearchIndex := ⟨[], [("aa", [(0, 1)]), ("bb", [(0, 1), (1, 1)])], [], [], 2⟩

/-- An embed-call oracle that rate-limits the first call and succeeds on
every later call. -/
def embRateOK : Nat → List String → Except String (List (List ℝ)) :=
  fun k _ => if k = 0 then Except.error "rate limit exceeded" else Except.ok [[]]

/-- An embed-call oracle that always fails with a rate-limit error. -/
def embRateFail : Nat → List String → Except String (List (List ℝ)) :=
  fun _ _ => Except.error "rate limit exceeded"

/-- An embed-call oracle that always fails with a non-rate error. -/
def embAuthFail : Nat → List String → Except String (List (List ℝ)) :=
  fun _ _ => Except.error "auth failed"

/-- An embed-call oracle that always succeeds, returning one (empty)
vector per input text. -/
def embAllOK : Nat → List String → Except String (List (List ℝ)) :=
  fun _ ts => Except.ok (ts.map (fun _ => []))

/-- An empty embedding index. -/
def idxEmbW : EmbeddingSearchIndex := ⟨fun _ => [], [], []⟩

/-- Invariant threaded through the posting-append fold of `add_document`:
keys are duplicate-free, every posting has a document id at most `N` and
a positive term frequency, and the postings of every term whose append is
still pending (`rem`) mention only ids strictly below `N`. -/
def PendingInv (N : Nat) (rem : List String) (l : List (String × List (Nat × Nat))) : Prop :=
  (l.map Prod.fst).Nodup ∧
  ∀ t ps, (t, ps) ∈ l →
    (ps.map Prod.fst).Nodup ∧ (∀ p ∈ ps, p.1 ≤ N ∧ 1 ≤ p.2) ∧
    (t ∈ rem → ∀ p ∈ ps, p.1 < N)

/-! # Theorems -/

/-! ## C7: persistence round trip -/

/-- C7: for every built index (lexical or embedding), saving it and
loading the saved snapshot yields an index that returns identical search
results — same documents, same scores, same ordering — for every fixed
query and `max_results`. -/
theorem save_load_roundtrip :
    (∀ (idx : SearchIndex) (q : String) (k : Nat),
      (SearchIndex.load idx.save).search q k = idx.search q k) ∧
    (∀ (eidx : EmbeddingSearchIndex) (q : String) (k : Nat),
      (EmbeddingSearchIndex.load eidx.save eidx.embed_query).search q k = eidx.search q k) :=
  ⟨fun _ _ _ => rfl, fun _ _ _ => rfl⟩

/-! ## C1: cosine similarity and unequal dimensions -/

/-- On unequal-length input, `cosine_similarity` raises nothing and
returns an ordinary score: here `[3,4]` against `[1]` yields `3/5`,
the `zip` having silently dropped the second component from the dot
product while the magnitude still used it. -/
theorem cosine_dim_mismatch_counterexample :
    ([3, 4] : List ℝ).length ≠ ([1] : List ℝ).length ∧
    cosine_similarity [3, 4] [1] = 3 / 5 := by
  constructor
  · simp
  · have h25 : Real.sqrt ((3 : ℝ) * 3 + (4 * 4 + 0)) = 5 := by
      rw [show (3 : ℝ) * 3 + (4 * 4 + 0) = 5 ^ 2 by norm_num]
      exact Real.sqrt_sq (by norm_num)
    have h1 : Real.sqrt ((1 : ℝ) * 1 + 0) = 1 := by
      rw [show (1 : ℝ) * 1 + 0 = 1 by norm_num]
      exact Real.sqrt_one
    simp only [cosine_similarity, magnitude, dot_product, List.zip_cons_cons,
      List.zip_nil_right, List.map_cons, List.map_nil, List.sum_cons, List.sum_nil]
    rw [h25, h1]
    norm_num

/-- Helper: `zip` only consumes the common prefix of its arguments. -/
theorem zip_eq_zip_take {α β : Type} :
    ∀ (l1 : List α) (l2 : List β), l1.zip l2 = (l1.take l2.length).zip (l2.take l1.length) := by
  intro l1
  induction l1 with
  | nil => intro l2; simp
  | cons a as ih =>
    intro l2
    cases l2 with
    | nil => simp
    | cons b bs => simp [ih bs]

/-- C1 (amended): `cosine_similarity` performs no dimension check and
never fails on unequal-length vectors; it returns a score whose dot
product ranges over the zip-truncated common prefix of the two vectors,
while each magnitude is taken over the corresponding full vector. -/
theorem cosine_similarity_no_dim_check :
    ∀ vec1 vec2 : List ℝ,
      cosine_similarity vec1 vec2 =
        if magnitude vec1 = 0 ∨ magnitude vec2 = 0 then 0
        else dot_product (vec1.take vec2.length) (vec2.take vec1.length) /
          (magnitude vec1 * magnitude vec2) := by
  intro vec1 vec2
  unfold cosine_similarity dot_product
  rw [zip_eq_zip_take vec1 vec2]

/-! ## C4: tokenization and the underscore -/

/-- C4 counterexample: the source tokenizer keeps `a_b` whole (Python
`\w` includes the underscore), while the claimed behaviour — every
non-alphanumeric, non-whitespace character acts as a separator — would
split it into length-1 tokens and return nothing. -/
theorem underscore_token_counterexample :
    tokenize "a_b" = ["a_b"] ∧ tokenize_claimC4 "a_b" = [] := by
  constructor
  · decide
  · decide

/-- C4 (amended): `tokenize` lowercases, replaces every character that is
not alphanumeric, not an underscore, and not whitespace by a single
space (so punctuation and symbols other than `_` separate tokens, but the
underscore is a word character and does not), splits on whitespace, and
drops stop words and tokens of length at most 1, preserving textual
order. -/
theorem tokenize_underscore_amended : ∀ s : String, tokenize s = tokenize_amendC4 s := by
  intro s
  have hfun : (fun c => if isWordChar c || c.isWhitespace then c else ' ') =
      (fun c : Char => if !c.isAlphanum && c ≠ '_' && !c.isWhitespace then ' ' else c) := by
    funext c
    by_cases h1 : c.isAlphanum <;> by_cases h2 : c = '_' <;>
      by_cases h3 : c.isWhitespace <;> simp [isWordChar, h1, h2, h3]
  simp only [tokenize, tokenize_amendC4, hfun]

/-! ## C9: the stemmer as a priority rule table -/

/-- Helper: the source control flow of `simple_stem` agrees with the
first-match-wins rule table. -/
theorem stemChars_eq_applyFirstRule : ∀ cs : List Char,
    stemChars cs = applyFirstRule stemRules cs := by
  intro cs
  by_cases h5 : 5 < cs.length
  · -- long words: walk the suffix chain in priority order
    by_cases hs1 : "ing".data.isSuffixOf cs
    · simp [stemChars, applyFirstRule, stemRules, h5, hs1]
    by_cases hs2 : "tion".data.isSuffixOf cs
    · simp [stemChars, applyFirstRule, stemRules, h5, hs1, hs2]
    by_cases hs3 : "ment".data.isSuffixOf cs
    · simp [stemChars, applyFirstRule, stemRules, h5, hs1, hs2, hs3]
    by_cases hs4 : "ness".data.isSuffixOf cs
    · simp [stemChars, applyFirstRule, stemRules, h5, hs1, hs2, hs3, hs4]
    by_cases hs5 : "able".data.isSuffixOf cs
    · simp [stemChars, applyFirstRule, stemRules, h5, hs1, hs2, hs3, hs4, hs5]
    by_cases hs6 : "ible".data.isSuffixOf cs
    · simp [stemChars, applyFirstRule, stemRules, h5, hs1, hs2, hs3, hs4, hs5, hs6]
    by_cases hs7 : "ous".data.isSuffixOf cs
    · simp [stemChars, applyFirstRule, stemRules, h5, hs1, hs2, hs3, hs4, hs5, hs6, hs7]
    by_cases hs8 : "ive".data.isSuffixOf cs
    · simp [stemChars, applyFirstRule, stemRules, h5, hs1, hs2, hs3, hs4, hs5, hs6, hs7, hs8]
    by_cases hs9 : "ly".data.isSuffixOf cs
    · simp [stemChars, applyFirstRule, stemRules, h5, hs1, hs2, hs3, hs4, hs5, hs6, hs7, hs8, hs9]
    by_cases hs10 : "ed".data.isSuffixOf cs
    · simp [stemChars, applyFirstRule, stemRules, h5, hs1, hs2, hs3, hs4, hs5, hs6, hs7, hs8, hs9, hs10]
    by_cases hs11 : "er".data.isSuffixOf cs
    · simp [stemChars, applyFirstRule, stemRules, h5, hs1, hs2, hs3, hs4, hs5, hs6, hs7, hs8, hs9, hs10, hs11]
    by_cases hs12 : "es".data.isSuffixOf cs
    · simp [stemChars, applyFirstRule, stemRules, h5, hs1, hs2, hs3, hs4, hs5, hs6, hs7, hs8, hs9, hs10, hs11, hs12]
    simp [stemChars, applyFirstRule, stemRules, h5, hs1, hs2, hs3, hs4, hs5, hs6, hs7, hs8, hs9, hs10, hs11, hs12]
  · simp [stemChars, applyFirstRule, stemRules, h5]

/-- C9: `simple_stem` removes at most one suffix, testing the branches
strictly in the spec's priority order with first match winning (`ing`;
then `tion`/`ment`/`ness`/`able`/`ible`; then `ous`/`ive`; then
`ly`/`ed`/`er`/`es`, all under length > 5; otherwise the trailing `s`
under length > 3), with no recursion: it coincides with the
first-match-wins application of the rule table `stemRules`. -/
theorem simple_stem_rules_spec : ∀ w : String, simple_stem w = stem_byRules w := by
  intro w
  unfold simple_stem stem_byRules
  rw [stemChars_eq_applyFirstRule]

/-! ## C5: ingestion retry policy -/

/-- C5: if a batch embed call fails with a rate-limit-classified failure,
the same batch is retried exactly once after the backoff; a successful
retry appends the batch and continues to the next batch with no error
surfaced; a failed retry, or a non-rate-limit failure, halts ingestion
with the error propagated and everything appended by prior successful
batches left in place. -/
theorem add_documents_retry_policy :
    ∀ (embedder : Nat → List String → Except String (List (List ℝ)))
      (batch : List Doc) (rest : List (List Doc)) (k : Nat) (tr : IngestTrace) (e : String),
      embedder k (batchTexts batch) = Except.error e →
      ((∀ vs, isRateError e = true → embedder (k + 1) (batchTexts batch) = Except.ok vs →
        runBatches embedder (batch :: rest) k tr =
          runBatches embedder rest (k + 2)
            { tr with
              documents := tr.documents ++ batch
              embeddings := tr.embeddings ++ vs
              calls := tr.calls ++ [batchTexts batch, batchTexts batch]
              backoffs := tr.backoffs + 1
              delays := tr.delays + (if rest = [] then 0 else 1) }) ∧
       (∀ e2, isRateError e = true → embedder (k + 1) (batchTexts batch) = Except.error e2 →
        runBatches embedder (batch :: rest) k tr =
          { tr with
            calls := tr.calls ++ [batchTexts batch, batchTexts batch]
            backoffs := tr.backoffs + 1
            error := some e2 }) ∧
       (isRateError e = false →
        runBatches embedder (batch :: rest) k tr =
          { tr with calls := tr.calls ++ [batchTexts batch], error := some e })) := by
  intro embedder batch rest k tr e he
  refine ⟨?_, ?_, ?_⟩
  · intro vs hrate hretry
    simp [runBatches, he, hrate, hretry]
  · intro e2 hrate hretry
    simp [runBatches, he, hrate, hretry]
  · intro hrate
    simp [runBatches, he, hrate]

/-- C5 witness: on a single one-document batch, a rate-limited first call
with a successful retry continues with the batch appended and no error; a
rate-limited retry failure halts with the error and nothing appended; a
non-rate failure halts immediately after one call. -/
theorem add_documents_retry_policy_witness :
    runBatches embRateOK [[⟨"t", "c"⟩]] 0 ⟨[], [], [], 0, 0, none⟩ =
      runBatches embRateOK [] 2
        ⟨[⟨"t", "c"⟩], [[]], [batchTexts [⟨"t", "c"⟩], batchTexts [⟨"t", "c"⟩]], 1, 0, none⟩ ∧
    runBatches embRateFail [[⟨"t", "c"⟩]] 0 ⟨[], [], [], 0, 0, none⟩ =
      ⟨[], [], [batchTexts [⟨"t", "c"⟩], batchTexts [⟨"t", "c"⟩]], 1, 0,
        some "rate limit exceeded"⟩ ∧
    runBatches embAuthFail [[⟨"t", "c"⟩]] 0 ⟨[], [], [], 0, 0, none⟩ =
      ⟨[], [], [batchTexts [⟨"t", "c"⟩]], 0, 0, some "auth failed"⟩ := by
  obtain ⟨h1, -, -⟩ :=
    add_documents_retry_policy embRateOK [⟨"t", "c"⟩] [] 0 ⟨[], [], [], 0, 0, none⟩
      "rate limit exceeded" (by rfl)
  obtain ⟨-, h2, -⟩ :=
    add_documents_retry_policy embRateFail [⟨"t", "c"⟩] [] 0 ⟨[], [], [], 0, 0, none⟩
      "rate limit exceeded" (by rfl)
  obtain ⟨-, -, h3⟩ :=
    add_documents_retry_policy embAuthFail [⟨"t", "c"⟩] [] 0 ⟨[], [], [], 0, 0, none⟩
      "auth failed" (by rfl)
  refine ⟨?_, ?_, ?_⟩
  · simpa using h1 [[]] (by decide) (by rfl)
  · simpa using h2 "rate limit exceeded" (by decide) (by rfl)
  · simpa using h3 (by decide)

/-! ## C6: batch partitioning and inter-batch delays -/

/-- Helper: concatenating the chunks gives back the original list. -/
theorem chunks_join {α : Type} (b : Nat) (hb : 0 < b) :
    ∀ (n : Nat) (l : List α), l.length ≤ n → (chunks b l).flatten = l := by
  intro n
  induction n with
  | zero =>
    intro l hl
    have : l = [] := List.eq_nil_of_length_eq_zero (Nat.le_zero.mp hl)
    subst this
    cases b with
    | zero => exact absurd hb (by omega)
    | succ b' => simp [chunks]
  | succ n ih =>
    intro l hl
    cases b with
    | zero => exact absurd hb (by omega)
    | succ b' =>
      cases l with
      | nil => simp [chunks]
      | cons x xs =>
        rw [chunks]
        have hlen : ((x :: xs).drop (b' + 1)).length ≤ n := by
          simp only [List.length_drop, List.length_cons]
          simp only [List.length_cons] at hl
          omega
        simp only [List.flatten_cons, ih _ hlen, List.take_append_drop]

/-- Helper: the sizes of the chunks are `b` repeated `len / b` times,
followed by `len % b` when the length is not a multiple of `b`. -/
theorem chunks_sizes {α : Type} (b : Nat) (hb : 0 < b) :
    ∀ (n : Nat) (l : List α), l.length ≤ n →
      (chunks b l).map List.length =
        List.replicate (l.length / b) b ++
          (if l.length % b = 0 then [] else [l.length % b]) := by
  intro n
  induction n with
  | zero =>
    intro l hl
    have : l = [] := List.eq_nil_of_length_eq_zero (Nat.le_zero.mp hl)
    subst this
    cases b with
    | zero => exact absurd hb (by omega)
    | succ b' => simp [chunks]
  | succ n ih =>
    intro l hl
    cases b with
    | zero => exact absurd hb (by omega)
    | succ b' =>
      cases l with
      | nil => simp [chunks]
      | cons x xs =>
        rw [chunks]
        have hlen : ((x :: xs).drop (b' + 1)).length ≤ n := by
          simp only [List.length_drop, List.length_cons]
          simp only [List.length_cons] at hl
          omega
        simp only [List.map_cons, ih _ hlen, List.length_take, List.length_drop]
        by_cases hble : b' + 1 ≤ (x :: xs).length
        · have hdiv : (x :: xs).length / (b' + 1) = ((x :: xs).length - (b' + 1)) / (b' + 1) + 1 :=
            Nat.div_eq_sub_div (by omega) hble
          have hmod : (x :: xs).length % (b' + 1) = ((x :: xs).length - (b' + 1)) % (b' + 1) :=
            (Nat.mod_eq_sub_mod hble).symm ▸ rfl
          rw [Nat.mod_eq_sub_mod hble] at *
          rw [hdiv]
          have hmin : min (b' + 1) (x :: xs).length = b' + 1 := Nat.min_eq_left hble
          rw [hmin, List.replicate_succ, List.cons_append]
        · have hlt : (x :: xs).length < b' + 1 := by omega
          have hne : (x :: xs).length ≠ 0 := by simp
          have hz : (x :: xs).length - (b' + 1) = 0 := by omega
          rw [hz]
          simp only [List.length_cons] at hlt
          simp [Nat.min_eq_right (by omega : xs.length + 1 ≤ b' + 1),
            Nat.div_eq_of_lt hlt, Nat.mod_eq_of_lt hlt]

/-- Helper: a run in which every embed call succeeds appends every batch
in order, records one call per batch, backs off never, delays between all
but the last batch, and surfaces no error. -/
theorem runBatches_ok (embedder : Nat → List String → Except String (List (List ℝ)))
    (hok : ∀ k ts, ∃ vs, embedder k ts = Except.ok vs) :
    ∀ (bs : List (List Doc)) (k : Nat) (tr : IngestTrace),
      ∃ es, runBatches embedder bs k tr =
        { documents := tr.documents ++ bs.flatten
          embeddings := tr.embeddings ++ es
          calls := tr.calls ++ bs.map batchTexts
          backoffs := tr.backoffs
          delays := tr.delays + (bs.length - 1)
          error := tr.error } := by
  intro bs
  induction bs with
  | nil =>
    intro k tr
    exact ⟨[], by cases tr; simp [runBatches]⟩
  | cons batch rest ih =>
    intro k tr
    obtain ⟨vs, hvs⟩ := hok k (batchTexts batch)
    obtain ⟨es, hes⟩ := ih (k + 1)
      { tr with
        documents := tr.documents ++ batch
        embeddings := tr.embeddings ++ vs
        calls := tr.calls ++ [batchTexts batch]
        delays := tr.delays + (if rest = [] then 0 else 1) }
    refine ⟨vs ++ es, ?_⟩
    rw [runBatches]
    simp only [hvs]
    rw [hes]
    cases tr
    cases rest <;> simp [List.append_assoc, IngestTrace.mk.injEq]
    all_goals omega

/-- C6: with a positive batch size and every embed call succeeding,
`add_documents` issues exactly `ceil(n/b)` batch calls over contiguous
batches in input order — sizes `b` except a final `n mod b` — appends all
documents, inserts the inter-batch delay after every batch except the
last, never backs off, and surfaces no error. -/
theorem add_documents_batching :
    ∀ (idx : EmbeddingSearchIndex)
      (embedder : Nat → List String → Except String (List (List ℝ)))
      (docs : List Doc) (b : Nat),
      0 < b → (∀ k ts, ∃ vs, embedder k ts = Except.ok vs) →
      (idx.add_documents embedder docs b).calls = (chunks b docs).map batchTexts ∧
      (idx.add_documents embedder docs b).calls.map List.length =
        List.replicate (docs.length / b) b ++
          (if docs.length % b = 0 then [] else [docs.length % b]) ∧
      (idx.add_documents embedder docs b).delays =
        (idx.add_documents embedder docs b).calls.length - 1 ∧
      (idx.add_documents embedder docs b).documents = idx.documents ++ docs ∧
      (idx.add_documents embedder docs b).error = none ∧
      (idx.add_documents embedder docs b).backoffs = 0 := by
  intro idx embedder docs b hb hok
  obtain ⟨es, hrun⟩ := runBatches_ok embedder hok (chunks b docs) 0
    ⟨idx.documents, idx.embeddings, [], 0, 0, none⟩
  have hcalls : (idx.add_documents embedder docs b).calls = (chunks b docs).map batchTexts := by
    rw [EmbeddingSearchIndex.add_documents, hrun]
    simp
  refine ⟨hcalls, ?_, ?_, ?_, ?_, ?_⟩
  · rw [hcalls, List.map_map]
    have hbt : (List.length ∘ batchTexts) = (List.length : List Doc → Nat) := by
      funext c
      simp [batchTexts]
    rw [hbt, chunks_sizes b hb docs.length docs le_rfl]
  · rw [hcalls, EmbeddingSearchIndex.add_documents, hrun]
    simp
  · rw [EmbeddingSearchIndex.add_documents, hrun]
    simp [chunks_join b hb docs.length docs le_rfl]
  · rw [EmbeddingSearchIndex.add_documents, hrun]
  · rw [EmbeddingSearchIndex.add_documents, hrun]

/-- C6 witness: ingesting 12 documents with batch size 5 issues exactly 3
calls of sizes 5, 5, 2 and applies the inter-batch delay exactly twice. -/
theorem add_documents_batching_witness :
    0 < 5 ∧
    (idxEmbW.add_documents embAllOK (List.replicate 12 ⟨"t", "c"⟩) 5).calls.map List.length =
      [5, 5, 2] ∧
    (idxEmbW.add_documents embAllOK (List.replicate 12 ⟨"t", "c"⟩) 5).delays = 2 := by
  obtain ⟨hc, hl, hd, -, -, -⟩ :=
    add_documents_batching idxEmbW embAllOK (List.replicate 12 ⟨"t", "c"⟩) 5 (by norm_num)
      (fun k ts => ⟨ts.map (fun _ => []), rfl⟩)
  have hl' : (idxEmbW.add_documents embAllOK (List.replicate 12 ⟨"t", "c"⟩) 5).calls.map
      List.length = [5, 5, 2] := by
    rw [hl]
    norm_num [List.replicate]
  refine ⟨by norm_num, hl', ?_⟩
  have hlen : (idxEmbW.add_documents embAllOK (List.replicate 12 ⟨"t", "c"⟩) 5).calls.length = 3 := by
    have := congrArg List.length hl'
    simpa using this
  rw [hd, hlen]

/-! ## C8: IDF formula and monotonicity -/

/-- Helper: looking up a key in a key-preserving mapped association list
with duplicate-free keys returns the image of that key's entry. -/
theorem alookup_map_snd {κ α β : Type} [DecidableEq κ] :
    ∀ (l : List (κ × α)) (f : κ × α → β), ((l.map Prod.fst).Nodup) →
      ∀ t a, (t, a) ∈ l → alookup (l.map (fun p => (p.1, f p))) t = some (f (t, a)) := by
  intro l
  induction l with
  | nil => intro f _ t a h; simp at h
  | cons hd tl ih =>
    intro f hnd t a hmem
    obtain ⟨k', v⟩ := hd
    simp only [List.map_cons, List.nodup_cons] at hnd
    rcases List.mem_cons.mp hmem with heq | htl
    · have h1 : t = k' := congrArg Prod.fst heq
      have h2 : a = v := congrArg Prod.snd heq
      subst h1
      subst h2
      simp [alookup]
    · have hne : k' ≠ t := by
        intro h
        exact hnd.1 (h ▸ (List.mem_map.mpr ⟨(t, a), htl, rfl⟩))
      simp only [List.map_cons, alookup, if_neg hne]
      exact ih f hnd.2 t a htl

/-- C8: after `build_idf_scores` on an index with `N = num_docs`
documents, every indexed term's IDF equals `ln((N+1)/(df+1))` with `df`
the length of its postings list, and IDF is monotonically non-increasing
in document frequency. -/
theorem build_idf_formula_monotone :
    ∀ (idx : SearchIndex), ((idx.inverted_index.map Prod.fst).Nodup) →
      (∀ t ps, (t, ps) ∈ idx.inverted_index →
        alookup (idx.build_idf_scores).idf_scores t =
          some (Real.log (((idx.num_docs : ℝ) + 1) / ((ps.length : ℝ) + 1)))) ∧
      (∀ ta psa tb psb, (ta, psa) ∈ idx.inverted_index → (tb, psb) ∈ idx.inverted_index →
        psa.length ≤ psb.length →
        ∀ xa xb, alookup (idx.build_idf_scores).idf_scores ta = some xa →
          alookup (idx.build_idf_scores).idf_scores tb = some xb → xb ≤ xa) := by
  intro idx hnd
  have hform : ∀ t ps, (t, ps) ∈ idx.inverted_index →
      alookup (idx.build_idf_scores).idf_scores t =
        some (Real.log (((idx.num_docs : ℝ) + 1) / ((ps.length : ℝ) + 1))) := by
    intro t ps hm
    have h := alookup_map_snd idx.inverted_index
      (fun tp => Real.log (((idx.num_docs : ℝ) + 1) / ((tp.2.length : ℝ) + 1))) hnd t ps hm
    simpa [SearchIndex.build_idf_scores] using h
  refine ⟨hform, ?_⟩
  intro ta psa tb psb hma hmb hle xa xb hxa hxb
  have ha := hform ta psa hma
  have hb := hform tb psb hmb
  rw [ha] at hxa
  rw [hb] at hxb
  obtain rfl : xa = Real.log (((idx.num_docs : ℝ) + 1) / ((psa.length : ℝ) + 1)) :=
    (Option.some.injEq .. ▸ hxa).symm
  obtain rfl : xb = Real.log (((idx.num_docs : ℝ) + 1) / ((psb.length : ℝ) + 1)) :=
    (Option.some.injEq .. ▸ hxb).symm
  have harg : ((idx.num_docs : ℝ) + 1) / ((psb.length : ℝ) + 1) ≤
      ((idx.num_docs : ℝ) + 1) / ((psa.length : ℝ) + 1) := by
    gcongr
  have hpos : (0 : ℝ) < ((idx.num_docs : ℝ) + 1) / ((psb.length : ℝ) + 1) := by positivity
  exact Real.log_le_log hpos harg

/-- C8 witness: on a concrete two-document index, the IDF of a term with
document frequency 1 is `ln(3/2)`, of a term with document frequency 2 is
`ln(3/3)`, and the latter does not exceed the former. -/
theorem build_idf_formula_monotone_witness :
    alookup (idxW8.build_idf_scores).idf_scores "aa" = some (Real.log ((3 : ℝ) / 2)) ∧
    alookup (idxW8.build_idf_scores).idf_scores "bb" = some (Real.log ((3 : ℝ) / 3)) ∧
    Real.log ((3 : ℝ) / 3) ≤ Real.log ((3 : ℝ) / 2) := by
  obtain ⟨h1, h2⟩ := build_idf_formula_monotone idxW8 (by decide)
  have ha := h1 "aa" [(0, 1)] (by decide)
  have hb := h1 "bb" [(0, 1), (1, 1)] (by decide)
  have ha' : alookup (idxW8.build_idf_scores).idf_scores "aa" =
      some (Real.log ((3 : ℝ) / 2)) := by
    rw [ha]
    norm_num [idxW8]
  have hb' : alookup (idxW8.build_idf_scores).idf_scores "bb" =
      some (Real.log ((3 : ℝ) / 3)) := by
    rw [hb]
    norm_num [idxW8]
  exact ⟨ha', hb', h2 "aa" [(0, 1)] "bb" [(0, 1), (1, 1)] (by decide) (by decide)
    (by decide) _ _ ha' hb'⟩

/-! ## C2: score accumulation is per occurrence of a query stem -/

/-- Helper: `addScore` changes the accumulated total of exactly the
targeted document, by exactly the added amount. -/
theorem lookup0_addScore (k : Nat) (v : ℝ) :
    ∀ (l : List (Nat × ℝ)) (d : Nat),
      lookup0 (addScore l k v) d = lookup0 l d + (if d = k then v else 0) := by
  intro l
  induction l with
  | nil =>
    intro d
    by_cases h : k = d
    · subst h
      simp [addScore, lookup0, alookupD, alookup]
    · simp [addScore, lookup0, alookupD, alookup, h, Ne.symm h]
  | cons hd tl ih =>
    intro d
    obtain ⟨k', v'⟩ := hd
    by_cases h1 : k' = k
    · subst h1
      by_cases h2 : k' = d
      · subst h2
        simp [addScore, lookup0, alookupD, alookup]
      · simp [addScore, lookup0, alookupD, alookup, h2, Ne.symm h2]
    · by_cases h2 : k' = d
      · subst h2
        simp [addScore, lookup0, alookupD, alookup, h1]
      · simp only [addScore, if_neg h1]
        simp only [lookup0, alookupD, alookup, if_neg h2]
        exact ih d

/-- Helper: folding a per-posting score update over a postings list adds
the filtered formula sum for the tracked document. -/
theorem lookup0_foldl_addScore (f : Nat × Nat → ℝ)
    (g : List (Nat × List String) → Nat × Nat → List (Nat × List String)) (d : Nat) :
    ∀ (ps : List (Nat × Nat)) (st : List (Nat × ℝ) × List (Nat × List String)),
      lookup0 (ps.foldl (fun st2 p => (addScore st2.1 p.1 (f p), g st2.2 p)) st).1 d =
        lookup0 st.1 d + ((ps.filter (fun p => p.1 = d)).map f).sum := by
  intro ps
  induction ps with
  | nil => intro st; simp
  | cons p ps ih =>
    intro st
    rw [List.foldl_cons]
    rw [ih]
    dsimp only
    rw [lookup0_addScore]
    by_cases hp : p.1 = d
    · simp [List.filter_cons, hp]
      ring
    · simp [List.filter_cons, hp, Ne.symm hp]

/-- Helper: one `scoreTerm` step adds exactly `perTermScore`. -/
theorem lookup0_scoreTerm (idx : SearchIndex) (d : Nat) (stem : String)
    (st : List (Nat × ℝ) × List (Nat × List String)) :
    lookup0 (scoreTerm idx st stem).1 d = lookup0 st.1 d + perTermScore idx stem d := by
  unfold scoreTerm perTermScore
  cases h : alookup idx.inverted_index stem with
  | none => simp
  | some postings =>
    exact lookup0_foldl_addScore _ (fun m p => addMatch m p.1 stem) d postings st

/-- Helper: accumulated scores decompose as the sum, over every
occurrence of a stem in the query-stem list, of that stem's per-term
contribution. -/
theorem scoreQuery_lookup0 (idx : SearchIndex) (d : Nat) :
    ∀ (stems : List String) (st : List (Nat × ℝ) × List (Nat × List String)),
      lookup0 (stems.foldl (scoreTerm idx) st).1 d =
        lookup0 st.1 d + (stems.map (fun s => perTermScore idx s d)).sum := by
  intro stems
  induction stems with
  | nil => intro st; simp
  | cons s ss ih =>
    intro st
    rw [List.foldl_cons, ih, lookup0_scoreTerm]
    simp [List.map_cons, List.sum_cons]
    ring

/-- C2 (amended): every occurrence of a stemmed term in the (not
deduplicated) stemmed query token list contributes its term score once:
the accumulated score of document `d` equals the sum over the query-stem
list of `perTermScore`.  A query whose two different tokens stem to the
same term therefore scores that term twice, not once. -/
theorem accumulated_score_per_occurrence :
    ∀ (idx : SearchIndex) (query_stems : List String) (d : Nat),
      lookup0 (idx.scoreQuery query_stems).1 d =
        (query_stems.map (fun s => perTermScore idx s d)).sum := by
  intro idx stems d
  unfold SearchIndex.scoreQuery
  rw [scoreQuery_lookup0]
  simp [lookup0, alookupD, alookup]

/-- C2 counterexample: on a two-document index, the query
`"fences fencing"` — whose two distinct tokens both stem to `fenc` —
accumulates twice the score for document 0 that the query `"fences"`
does, so distinct-term/once-per-pair accumulation fails. -/
theorem duplicate_stem_double_count_counterexample :
    lookup0 (idxC2.scoreQuery ((tokenize "fences fencing").map simple_stem)).1 0 ≠
      lookup0 (idxC2.scoreQuery ((tokenize "fences").map simple_stem)).1 0 := by
  have hbinv : ([d0C2, d1C2].foldl SearchIndex.add_document SearchIndex.empty).inverted_index =
      [("fenc", [(0, 1)]), ("wall", [(0, 1), (1, 1)]), ("zone", [(1, 1)])] := by decide
  have hbnum : ([d0C2, d1C2].foldl SearchIndex.add_document SearchIndex.empty).num_docs = 2 := by
    decide
  have hblen : ([d0C2, d1C2].foldl SearchIndex.add_document SearchIndex.empty).doc_lengths =
      [2, 2] := by decide
  have hinv : idxC2.inverted_index =
      [("fenc", [(0, 1)]), ("wall", [(0, 1), (1, 1)]), ("zone", [(1, 1)])] := by
    simp only [idxC2, buildIndex, SearchIndex.build_idf_scores]
    exact hbinv
  have hlen : idxC2.doc_lengths = [2, 2] := by
    simp only [idxC2, buildIndex, SearchIndex.build_idf_scores]
    exact hblen
  have hidf : alookupD idxC2.idf_scores "fenc" 0 = Real.log ((3 : ℝ) / 2) := by
    simp only [idxC2, buildIndex, SearchIndex.build_idf_scores]
    rw [hbinv, hbnum]
    simp [alookupD, alookup]
    norm_num
  have hs : perTermScore idxC2 "fenc" 0 = Real.log 2 * Real.log ((3 : ℝ) / 2) / Real.sqrt 3 := by
    unfold perTermScore
    rw [show alookup idxC2.inverted_index "fenc" = some [(0, 1)] from by
      rw [hinv]; simp [alookup]]
    rw [hidf, hlen]
    norm_num
  have hspos : 0 < Real.log 2 * Real.log ((3 : ℝ) / 2) / Real.sqrt 3 :=
    div_pos (mul_pos (Real.log_pos (by norm_num)) (Real.log_pos (by norm_num)))
      (Real.sqrt_pos.mpr (by norm_num))
  have hq : ∀ stems, lookup0 (idxC2.scoreQuery stems).1 0 =
      (stems.map (fun s => perTermScore idxC2 s 0)).sum := by
    intro stems
    unfold SearchIndex.scoreQuery
    rw [scoreQuery_lookup0]
    simp [lookup0, alookupD, alookup]
  rw [show (tokenize "fences fencing").map simple_stem = ["fenc", "fenc"] from by decide]
  rw [show (tokenize "fences").map simple_stem = ["fenc"] from by decide]
  rw [hq, hq]
  simp only [List.map_cons, List.map_nil, List.sum_cons, List.sum_nil]
  rw [hs]
  intro heq
  nlinarith [hspos]

/-! ## C3: result ordering -/

/-- Helper: membership in an insertion. -/
theorem mem_insertDesc (x : Nat × ℝ) :
    ∀ (l : List (Nat × ℝ)) (z : Nat × ℝ), z ∈ insertDesc x l → z = x ∨ z ∈ l := by
  intro l
  induction l with
  | nil => intro z hz; simpa [insertDesc] using hz
  | cons y ys ih =>
    intro z hz
    by_cases h : x.2 < y.2
    · rw [insertDesc, if_pos h] at hz
      rcases List.mem_cons.mp hz with rfl | hz'
      · exact Or.inr (List.mem_cons_self _ _)
      · rcases ih z hz' with hx | hy
        · exact Or.inl hx
        · exact Or.inr (List.mem_cons_of_mem _ hy)
    · rw [insertDesc, if_neg h] at hz
      rcases List.mem_cons.mp hz with rfl | hz'
      · exact Or.inl rfl
      · exact Or.inr hz'

/-- Helper: inserting preserves descending sortedness. -/
theorem insertDesc_pairwise (x : Nat × ℝ) :
    ∀ (l : List (Nat × ℝ)), l.Pairwise (fun a b => b.2 ≤ a.2) →
      (insertDesc x l).Pairwise (fun a b => b.2 ≤ a.2) := by
  intro l
  induction l with
  | nil => intro _; simp [insertDesc]
  | cons y ys ih =>
    intro hp
    rw [List.pairwise_cons] at hp
    by_cases h : x.2 < y.2
    · rw [insertDesc, if_pos h]
      rw [List.pairwise_cons]
      refine ⟨?_, ih hp.2⟩
      intro z hz
      rcases mem_insertDesc x ys z hz with rfl | hy
      · exact le_of_lt h
      · exact hp.1 z hy
    · rw [insertDesc, if_neg h]
      rw [List.pairwise_cons]
      refine ⟨?_, List.pairwise_cons.mpr hp⟩
      intro z hz
      rcases List.mem_cons.mp hz with rfl | hz'
      · exact le_of_not_lt h
      · exact le_trans (hp.1 z hz') (le_of_not_lt h)

/-- Helper: the stable descending sort sorts. -/
theorem sortScoresDesc_pairwise :
    ∀ (l : List (Nat × ℝ)), (sortScoresDesc l).Pairwise (fun a b => b.2 ≤ a.2) := by
  intro l
  induction l with
  | nil => simp [sortScoresDesc]
  | cons x xs ih => exact insertDesc_pairwise x _ ih

/-- Helper: insertion interacts with an equal-score filter as stability
demands: the inserted element lands in front of every element of equal
score already present. -/
theorem filter_insertDesc (c : ℝ) (x : Nat × ℝ) :
    ∀ (l : List (Nat × ℝ)),
      (insertDesc x l).filter (fun p => decide (p.2 = c)) =
        if x.2 = c then x :: l.filter (fun p => decide (p.2 = c))
        else l.filter (fun p => decide (p.2 = c)) := by
  intro l
  induction l with
  | nil =>
    by_cases hx : x.2 = c <;> simp [insertDesc, List.filter, hx]
  | cons y ys ih =>
    by_cases h : x.2 < y.2
    · rw [insertDesc, if_pos h]
      by_cases hx : x.2 = c
      · have hy : ¬ y.2 = c := by
          intro hyc
          rw [hx] at h
          rw [hyc] at h
          exact lt_irrefl c h
        rw [if_pos hx]
        have hskip : (y :: insertDesc x ys).filter (fun p => decide (p.2 = c)) =
            (insertDesc x ys).filter (fun p => decide (p.2 = c)) := by
          simp [List.filter_cons, hy]
        rw [hskip, ih, if_pos hx]
        simp [List.filter_cons, hy]
      · rw [if_neg hx]
        simp only [List.filter_cons]
        rw [ih, if_neg hx]
    · rw [insertDesc, if_neg h]
      by_cases hx : x.2 = c
      · rw [if_pos hx]
        simp [List.filter_cons, hx]
      · rw [if_neg hx]
        simp [List.filter_cons, hx]

/-- Helper: the sort is stable — restricted to any fixed score, the sorted
list preserves the accumulation order. -/
theorem filter_sortScoresDesc (c : ℝ) :
    ∀ (l : List (Nat × ℝ)),
      (sortScoresDesc l).filter (fun p => decide (p.2 = c)) =
        l.filter (fun p => decide (p.2 = c)) := by
  intro l
  induction l with
  | nil => simp [sortScoresDesc]
  | cons x xs ih =>
    rw [sortScoresDesc, filter_insertDesc, List.filter_cons]
    by_cases hx : x.2 = c
    · rw [if_pos hx, ih]
      simp [hx]
    · rw [if_neg hx, ih]
      simp [hx]

/-- Helper: the idealized `round(x, 4)` is monotone. -/
theorem roundTo4_mono {a b : ℝ} (h : a ≤ b) : roundTo4 a ≤ roundTo4 b := by
  unfold roundTo4
  have hr : round (a * 10000) ≤ round (b * 10000) := by
    rw [round_eq, round_eq]
    exact Int.floor_mono (by nlinarith)
  have : ((round (a * 10000) : ℤ) : ℝ) ≤ ((round (b * 10000) : ℤ) : ℝ) := by exact_mod_cast hr
  linarith

/-- Helper: search results are ordered by non-increasing (rounded)
score. -/
theorem search_scores_pairwise (idx : SearchIndex) (q : String) (k : Nat) :
    ((idx.search q k).map SearchResult.score).Pairwise (fun a b => b ≤ a) := by
  unfold SearchIndex.search
  by_cases hq : (tokenize q).map simple_stem = []
  · rw [if_pos hq]
    simp
  · rw [if_neg hq]
    simp only [List.map_map]
    rw [List.pairwise_map]
    have hs : ((sortScoresDesc (idx.scoreQuery ((tokenize q).map simple_stem)).1).take
        k).Pairwise (fun a b => b.2 ≤ a.2) :=
      (sortScoresDesc_pairwise _).sublist (List.take_sublist _ _)
    exact hs.imp (fun h => roundTo4_mono h)

/-- C3 (amended): the lexical result list is sorted in descending order
of accumulated score; ties are broken stably by the order in which
documents were first inserted into the score accumulator — query-term
order, then posting order — which need not coincide with document-id
order. -/
theorem search_sorted_and_stable :
    (∀ (idx : SearchIndex) (q : String) (k : Nat),
      ((idx.search q k).map SearchResult.score).Pairwise (fun a b => b ≤ a)) ∧
    (∀ (idx : SearchIndex) (stems : List String) (c : ℝ),
      (sortScoresDesc (idx.scoreQuery stems).1).filter (fun p => decide (p.2 = c)) =
        (idx.scoreQuery stems).1.filter (fun p => decide (p.2 = c))) :=
  ⟨search_scores_pairwise, fun idx stems c => filter_sortScoresDesc c (idx.scoreQuery stems).1⟩

/-- C3 counterexample: two documents with mathematically equal
accumulated scores are returned with the later-added document (`dB`,
id 1) first, because `zebra` — matching document 1 — precedes `quartz`
— matching document 0 — in the query, so smaller-id-first tie-breaking
fails. -/
theorem tie_order_counterexample :
    lookup0 (idxC3.scoreQuery ((tokenize "zebra quartz").map simple_stem)).1 0 =
      lookup0 (idxC3.scoreQuery ((tokenize "zebra quartz").map simple_stem)).1 1 ∧
    (idxC3.search "zebra quartz" 10).map SearchResult.document = [dB, dA] := by
  have hbinv : ([dA, dB].foldl SearchIndex.add_document SearchIndex.empty).inverted_index =
      [("quartz", [(0, 1)]), ("zebra", [(1, 1)])] := by decide
  have hbnum : ([dA, dB].foldl SearchIndex.add_document SearchIndex.empty).num_docs = 2 := by
    decide
  have hblen : ([dA, dB].foldl SearchIndex.add_document SearchIndex.empty).doc_lengths =
      [1, 1] := by decide
  have hbdocs : ([dA, dB].foldl SearchIndex.add_document SearchIndex.empty).documents =
      [dA, dB] := by decide
  have hinv : idxC3.inverted_index = [("quartz", [(0, 1)]), ("zebra", [(1, 1)])] := by
    simp only [idxC3, buildIndex, SearchIndex.build_idf_scores]
    exact hbinv
  have hlen : idxC3.doc_lengths = [1, 1] := by
    simp only [idxC3, buildIndex, SearchIndex.build_idf_scores]
    exact hblen
  have hdocs : idxC3.documents = [dA, dB] := by
    simp only [idxC3, buildIndex, SearchIndex.build_idf_scores]
    exact hbdocs
  have hidf : idxC3.idf_scores =
      [("quartz", Real.log (((2 : ℕ) + 1 : ℝ) / ((1 : ℕ) + 1 : ℝ))),
       ("zebra", Real.log (((2 : ℕ) + 1 : ℝ) / ((1 : ℕ) + 1 : ℝ)))] := by
    simp only [idxC3, buildIndex, SearchIndex.build_idf_scores]
    rw [hbinv, hbnum]
    simp
  have hstems : (tokenize "zebra quartz").map simple_stem = ["zebra", "quartz"] := by decide
  have hsq : (idxC3.scoreQuery ["zebra", "quartz"]).1 =
      [(1, Real.log (1 + ((1 : ℕ) : ℝ)) * alookupD idxC3.idf_scores "zebra" 0 /
          Real.sqrt (((1 : ℕ) : ℝ) + 1)),
       (0, Real.log (1 + ((1 : ℕ) : ℝ)) * alookupD idxC3.idf_scores "quartz" 0 /
          Real.sqrt (((1 : ℕ) : ℝ) + 1))] := by
    unfold SearchIndex.scoreQuery
    simp only [List.foldl_cons, List.foldl_nil]
    unfold scoreTerm
    rw [show alookup idxC3.inverted_index "zebra" = some [(1, 1)] from by
      rw [hinv]; simp [alookup]]
    rw [show alookup idxC3.inverted_index "quartz" = some [(0, 1)] from by
      rw [hinv]; simp [alookup]]
    simp only [List.foldl_cons, List.foldl_nil]
    rw [hlen]
    simp [addScore]
  have hidfz : alookupD idxC3.idf_scores "zebra" 0 =
      Real.log (((2 : ℕ) + 1 : ℝ) / ((1 : ℕ) + 1 : ℝ)) := by
    rw [hidf]
    simp [alookupD, alookup]
  have hidfq : alookupD idxC3.idf_scores "quartz" 0 =
      Real.log (((2 : ℕ) + 1 : ℝ) / ((1 : ℕ) + 1 : ℝ)) := by
    rw [hidf]
    simp [alookupD, alookup]
  rw [hidfz, hidfq] at hsq
  constructor
  · rw [hstems, hsq]
    simp [lookup0, alookupD, alookup]
  · simp only [SearchIndex.search, hstems]
    rw [if_neg (by simp : ¬(["zebra", "quartz"] : List String) = [])]
    rw [hsq]
    simp [sortScoresDesc, insertDesc, lt_self_iff_false, hdocs, List.getD]

/-! ## C10: structural invariants of the built lexical index -/

/-- Helper: `bumpCount` leaves the key list unchanged when the key is
present and appends it otherwise. -/
theorem bumpCount_keys (k : String) :
    ∀ l : List (String × Nat),
      (bumpCount l k).map Prod.fst =
        if k ∈ l.map Prod.fst then l.map Prod.fst else l.map Prod.fst ++ [k] := by
  intro l
  induction l with
  | nil => simp [bumpCount]
  | cons hd tl ih =>
    obtain ⟨k', c⟩ := hd
    by_cases h : k' = k
    · subst h
      simp [bumpCount]
    · simp only [bumpCount, if_neg h, List.map_cons, ih]
      by_cases hm : k ∈ tl.map Prod.fst
      · simp [hm, Ne.symm h]
      · simp [hm, Ne.symm h]

/-- Helper: `bumpCount` keeps every count positive. -/
theorem bumpCount_values (k : String) :
    ∀ l : List (String × Nat), (∀ q ∈ l, 1 ≤ q.2) → ∀ q ∈ bumpCount l k, 1 ≤ q.2 := by
  intro l
  induction l with
  | nil =>
    intro _ q hq
    simp only [bumpCount] at hq
    rcases List.mem_singleton.mp hq with rfl
    exact le_refl 1
  | cons hd tl ih =>
    intro hall q hq
    obtain ⟨k', c⟩ := hd
    by_cases h : k' = k
    · subst h
      rw [bumpCount, if_pos rfl] at hq
      rcases List.mem_cons.mp hq with rfl | htl
      · simp
      · exact hall q (List.mem_cons_of_mem _ htl)
    · rw [bumpCount, if_neg h] at hq
      rcases List.mem_cons.mp hq with rfl | htl
      · exact hall _ (List.mem_cons_self _ _)
      · exact ih (fun q hq => hall q (List.mem_cons_of_mem _ hq)) q htl

/-- Helper: the keys of `countTokens` are duplicate-free and all counts
are positive. -/
theorem countTokens_props (ts : List String) :
    ((countTokens ts).map Prod.fst).Nodup ∧ ∀ q ∈ countTokens ts, 1 ≤ q.2 := by
  suffices h : ∀ (ts : List String) (l : List (String × Nat)),
      (l.map Prod.fst).Nodup → (∀ q ∈ l, 1 ≤ q.2) →
      ((ts.foldl bumpCount l).map Prod.fst).Nodup ∧ ∀ q ∈ ts.foldl bumpCount l, 1 ≤ q.2 by
    exact h ts [] (by simp) (by simp)
  intro ts
  induction ts with
  | nil => intro l h1 h2; exact ⟨h1, h2⟩
  | cons t ts ih =>
    intro l h1 h2
    rw [List.foldl_cons]
    refine ih (bumpCount l t) ?_ (bumpCount_values t l h2)
    rw [bumpCount_keys]
    by_cases hm : t ∈ l.map Prod.fst
    · rw [if_pos hm]
      exact h1
    · rw [if_neg hm]
      rw [List.nodup_append]
      refine ⟨h1, List.nodup_singleton t, ?_⟩
      intro a ha hat
      rw [List.mem_singleton] at hat
      subst hat
      exact hm ha

/-- Helper: `alistAppend` leaves the key list unchanged when the key is
present and appends it otherwise. -/
theorem alistAppend_keys (k : String) (p : Nat × Nat) :
    ∀ l, (alistAppend l k p).map Prod.fst =
      if k ∈ l.map Prod.fst then l.map Prod.fst else l.map Prod.fst ++ [k] := by
  intro l
  induction l with
  | nil => simp [alistAppend]
  | cons hd tl ih =>
    obtain ⟨k', ps'⟩ := hd
    by_cases h : k' = k
    · subst h
      simp [alistAppend]
    · simp only [alistAppend, if_neg h, List.map_cons, ih]
      by_cases hm : k ∈ tl.map Prod.fst
      · simp [hm, Ne.symm h]
      · simp [hm, Ne.symm h]

/-- Helper: appending the fresh document's posting for a pending key
preserves the fold invariant and discharges that key. -/
theorem pendingInv_step (N : Nat) (k : String) (c : Nat) (rem : List String)
    (hnk : k ∉ rem) (hc : 1 ≤ c) :
    ∀ l, PendingInv N (k :: rem) l → PendingInv N rem (alistAppend l k (N, c)) := by
  intro l
  induction l with
  | nil =>
    intro _
    constructor
    · simp [alistAppend]
    · intro t ps hm
      simp only [alistAppend, List.mem_singleton] at hm
      have ht : t = k := congrArg Prod.fst hm
      have hps : ps = [(N, c)] := congrArg Prod.snd hm
      subst ht
      subst hps
      refine ⟨by simp, ?_, ?_⟩
      · intro p hp
        rw [List.mem_singleton] at hp
        subst hp
        exact ⟨le_refl N, hc⟩
      · intro hkrem
        exact absurd hkrem hnk
  | cons hd tl ih =>
    intro hP
    obtain ⟨k', ps'⟩ := hd
    obtain ⟨hnd, hent⟩ := hP
    simp only [List.map_cons, List.nodup_cons] at hnd
    by_cases h : k' = k
    · rw [alistAppend, if_pos h]
      constructor
      · simp only [List.map_cons]
        exact List.nodup_cons.mpr hnd
      · intro t ps hm
        rcases List.mem_cons.mp hm with heq | htl
        · have ht : t = k' := congrArg Prod.fst heq
          have hps : ps = ps' ++ [(N, c)] := congrArg Prod.snd heq
          rw [ht, hps]
          have hold := hent k' ps' (List.mem_cons_self _ _)
          have hkmem : k' ∈ k :: rem := by
            rw [h]
            exact List.mem_cons_self _ _
          have hlt : ∀ p ∈ ps', p.1 < N := hold.2.2 hkmem
          refine ⟨?_, ?_, ?_⟩
          · rw [List.map_append, List.nodup_append]
            refine ⟨hold.1, by simp, ?_⟩
            intro a ha hb
            simp only [List.map_cons, List.map_nil, List.mem_singleton] at hb
            obtain ⟨p, hp, hpa⟩ := List.mem_map.mp ha
            have hfin : p.1 < N := hlt p hp
            rw [hpa, hb] at hfin
            exact absurd hfin (lt_irrefl N)
          · intro p hp
            rcases List.mem_append.mp hp with hp1 | hp2
            · exact ⟨le_of_lt (hlt p hp1), (hold.2.1 p hp1).2⟩
            · rw [List.mem_singleton] at hp2
              subst hp2
              exact ⟨le_refl N, hc⟩
          · intro hkrem
            rw [h] at hkrem
            exact absurd hkrem hnk
        · have hold := hent t ps (List.mem_cons_of_mem _ htl)
          exact ⟨hold.1, hold.2.1, fun htrem => hold.2.2 (List.mem_cons_of_mem _ htrem)⟩
    · rw [alistAppend, if_neg h]
      have hPtl : PendingInv N (k :: rem) tl :=
        ⟨hnd.2, fun t ps hm => hent t ps (List.mem_cons_of_mem _ hm)⟩
      have hstep := ih hPtl
      constructor
      · simp only [List.map_cons]
        apply List.nodup_cons.mpr
        refine ⟨?_, hstep.1⟩
        rw [alistAppend_keys]
        by_cases hm : k ∈ tl.map Prod.fst
        · rw [if_pos hm]
          exact hnd.1
        · rw [if_neg hm]
          intro hmem
          rcases List.mem_append.mp hmem with h1 | h2
          · exact hnd.1 h1
          · rw [List.mem_singleton] at h2
            exact h h2
      · intro t ps hm
        rcases List.mem_cons.mp hm with heq | htl2
        · have ht : t = k' := congrArg Prod.fst heq
          have hps : ps = ps' := congrArg Prod.snd heq
          rw [ht, hps]
          have hold := hent k' ps' (List.mem_cons_self _ _)
          exact ⟨hold.1, hold.2.1, fun hrem => hold.2.2 (List.mem_cons_of_mem _ hrem)⟩
        · exact hstep.2 t ps htl2

/-- Helper: folding all the fresh document's term counts into the
inverted index discharges every pending key. -/
theorem pendingInv_fold (N : Nat) :
    ∀ (counts : List (String × Nat)) (l : List (String × List (Nat × Nat))),
      ((counts.map Prod.fst).Nodup) → (∀ q ∈ counts, 1 ≤ q.2) →
      PendingInv N (counts.map Prod.fst) l →
      PendingInv N [] (counts.foldl (fun ii tc => alistAppend ii tc.1 (N, tc.2)) l) := by
  intro counts
  induction counts with
  | nil =>
    intro l _ _ h
    exact h
  | cons q qs ih =>
    intro l hnd hvals hP
    rw [List.foldl_cons]
    obtain ⟨k, c⟩ := q
    simp only [List.map_cons, List.nodup_cons] at hnd
    simp only [List.map_cons] at hP
    exact ih _ hnd.2 (fun q hq => hvals q (List.mem_cons_of_mem _ hq))
      (pendingInv_step N k c (qs.map Prod.fst) hnd.1
        (hvals (k, c) (List.mem_cons_self _ _)) l hP)

/-- Helper: one `add_document` call preserves the index well-formedness
invariants, with the fresh document receiving id `num_docs`. -/
theorem add_document_wellformed (idx : SearchIndex) (doc : Doc)
    (h1 : idx.num_docs = idx.documents.length)
    (h2 : idx.num_docs = idx.doc_lengths.length)
    (h3 : (idx.inverted_index.map Prod.fst).Nodup)
    (h4 : ∀ t ps, (t, ps) ∈ idx.inverted_index →
      (ps.map Prod.fst).Nodup ∧ ∀ p ∈ ps, p.1 < idx.num_docs ∧ 1 ≤ p.2) :
    (idx.add_document doc).num_docs = (idx.add_document doc).documents.length ∧
    (idx.add_document doc).num_docs = (idx.add_document doc).doc_lengths.length ∧
    (((idx.add_document doc).inverted_index.map Prod.fst).Nodup) ∧
    ∀ t ps, (t, ps) ∈ (idx.add_document doc).inverted_index →
      (ps.map Prod.fst).Nodup ∧
        ∀ p ∈ ps, p.1 < (idx.add_document doc).num_docs ∧ 1 ≤ p.2 := by
  have hcounts := countTokens_props
    ((tokenize (doc.title ++ " " ++ doc.title ++ " " ++ doc.content)).map simple_stem)
  have hP0 : PendingInv idx.documents.length
      ((countTokens
        ((tokenize (doc.title ++ " " ++ doc.title ++ " " ++ doc.content)).map
          simple_stem)).map Prod.fst)
      idx.inverted_index := by
    refine ⟨h3, ?_⟩
    intro t ps hm
    obtain ⟨hnd, hb⟩ := h4 t ps hm
    refine ⟨hnd, ?_, ?_⟩
    · intro p hp
      have hbp := hb p hp
      rw [h1] at hbp
      exact ⟨le_of_lt hbp.1, hbp.2⟩
    · intro _ p hp
      have hbp := hb p hp
      rw [h1] at hbp
      exact hbp.1
  have hfold := pendingInv_fold idx.documents.length _ idx.inverted_index
    hcounts.1 hcounts.2 hP0
  refine ⟨?_, ?_, ?_, ?_⟩
  · simp [SearchIndex.add_document, h1]
  · simp [SearchIndex.add_document, h2]
  · simpa [SearchIndex.add_document] using hfold.1
  · intro t ps hm
    simp only [SearchIndex.add_document] at hm
    obtain ⟨hnd, hbnd, -⟩ := hfold.2 t ps hm
    refine ⟨hnd, ?_⟩
    intro p hp
    have hb := hbnd p hp
    simp only [SearchIndex.add_document]
    constructor
    · rw [h1]
      omega
    · exact hb.2

/-- Helper: every index reachable from the fresh empty index by
`add_document` calls is well-formed. -/
theorem foldl_add_document_wellformed :
    ∀ (docs : List Doc) (idx : SearchIndex),
      idx.num_docs = idx.documents.length →
      idx.num_docs = idx.doc_lengths.length →
      ((idx.inverted_index.map Prod.fst).Nodup) →
      (∀ t ps, (t, ps) ∈ idx.inverted_index →
        (ps.map Prod.fst).Nodup ∧ ∀ p ∈ ps, p.1 < idx.num_docs ∧ 1 ≤ p.2) →
      (docs.foldl SearchIndex.add_document idx).num_docs =
        (docs.foldl SearchIndex.add_document idx).documents.length ∧
      (docs.foldl SearchIndex.add_document idx).num_docs =
        (docs.foldl SearchIndex.add_document idx).doc_lengths.length ∧
      (((docs.foldl SearchIndex.add_document idx).inverted_index.map Prod.fst).Nodup) ∧
      ∀ t ps, (t, ps) ∈ (docs.foldl SearchIndex.add_document idx).inverted_index →
        (ps.map Prod.fst).Nodup ∧
          ∀ p ∈ ps, p.1 < (docs.foldl SearchIndex.add_document idx).num_docs ∧ 1 ≤ p.2 := by
  intro docs
  induction docs with
  | nil =>
    intro idx h1 h2 h3 h4
    exact ⟨h1, h2, h3, h4⟩
  | cons d ds ih =>
    intro idx h1 h2 h3 h4
    rw [List.foldl_cons]
    obtain ⟨g1, g2, g3, g4⟩ := add_document_wellformed idx d h1 h2 h3 h4
    exact ih (idx.add_document d) g1 g2 g3 g4

/-- C10: after any sequence of `add_document` calls on a fresh lexical
index, `num_docs` equals the length of both `documents` and
`doc_lengths`; every posting `(doc_id, tf)` satisfies
`doc_id < num_docs` and `tf ≥ 1`, with at most one posting per document
per term; hence the `doc_lengths[doc_id]` and `documents[doc_id]`
accesses performed by `search` are in bounds. -/
theorem add_document_invariants :
    ∀ docs : List Doc,
      (docs.foldl SearchIndex.add_document SearchIndex.empty).num_docs =
        (docs.foldl SearchIndex.add_document SearchIndex.empty).documents.length ∧
      (docs.foldl SearchIndex.add_document SearchIndex.empty).num_docs =
        (docs.foldl SearchIndex.add_document SearchIndex.empty).doc_lengths.length ∧
      ∀ t ps, (t, ps) ∈ (docs.foldl SearchIndex.add_document SearchIndex.empty).inverted_index →
        (ps.map Prod.fst).Nodup ∧
          ∀ p ∈ ps,
            p.1 < (docs.foldl SearchIndex.add_document SearchIndex.empty).num_docs ∧
            1 ≤ p.2 ∧
            p.1 < (docs.foldl SearchIndex.add_document SearchIndex.empty).documents.length ∧
            p.1 < (docs.foldl SearchIndex.add_document SearchIndex.empty).doc_lengths.length := by
  intro docs
  obtain ⟨h1, h2, h3, h4⟩ := foldl_add_document_wellformed docs SearchIndex.empty
    (by simp [SearchIndex.empty]) (by simp [SearchIndex.empty])
    (by simp [SearchIndex.empty]) (by simp [SearchIndex.empty])
  refine ⟨h1, h2, ?_⟩
  intro t ps hm
  obtain ⟨hnd, hb⟩ := h4 t ps hm
  refine ⟨hnd, ?_⟩
  intro p hp
  obtain ⟨hlt, htf⟩ := hb p hp
  exact ⟨hlt, htf, h1 ▸ hlt, h2 ▸ hlt⟩

/-- C10 witness: on the one-document corpus `[d0C2]`, the term `fenc`
holds exactly the posting `(0, 1)`, whose document id is below
`num_docs` and whose frequency is positive. -/
theorem add_document_invariants_witness :
    (("fenc", [(0, 1)]) ∈
      ([d0C2].foldl SearchIndex.add_document SearchIndex.empty).inverted_index) ∧
    (0 : Nat) < ([d0C2].foldl SearchIndex.add_document SearchIndex.empty).num_docs ∧
    (1 : Nat) ≤ 1 := by
  have hm : ("fenc", [(0, 1)]) ∈
      ([d0C2].foldl SearchIndex.add_document SearchIndex.empty).inverted_index := by decide
  obtain ⟨-, -, h3⟩ := add_document_invariants [d0C2]
  obtain ⟨-, hb⟩ := h3 "fenc" [(0, 1)] hm
  have hp := hb (0, 1) (by decide)
  exact ⟨hm, hp.1, hp.2.1⟩
